import Mathlib

/-!
Verification of the client-side data-access layer of a Vue CRUD frontend:
the bidirectional key-casing transcoder (`src/utils/caseConversion.ts`),
the axios response interceptor (`src/services/api.ts`), and the Pinia
resource stores (`useYTChannelStore.ts` / `useYTVideoStore.ts`).

JavaScript strings are modelled as `String` (lists of characters), JSON-like
runtime values as the inductive type `JVal`, and the asynchronous store
actions as pure state transformers taking the settled transport outcome
(`Except ApiError _`) as an explicit argument.
-/

/-! ## Character classes of the regexes in caseConversion.ts -/

/-- The character class `[A-Z]` of `camelToSnake`'s regex. -/
def isAsciiUpper (c : Char) : Bool := 65 ≤ c.toNat && c.toNat ≤ 90

/-- The character class `[a-z]` of `snakeToCamel`'s regex. -/
def isAsciiLower (c : Char) : Bool := 97 ≤ c.toNat && c.toNat ≤ 122

/-! ## caseConversion.ts

`snakeToCamel(str)` is `str.replace(/_([a-z])/g, (_, letter) => letter.toUpperCase())`:
a left-to-right scan replacing each non-overlapping occurrence of an
underscore followed by a lower-case letter with that letter upper-cased.

`camelToSnake(str)` is ``str.replace(/[A-Z]/g, letter => `_${letter.toLowerCase()}`)``:
each upper-case letter is replaced by an underscore plus its lower-case form.

`Char.toUpper` / `Char.toLower` agree with JavaScript's `toUpperCase` /
`toLowerCase` on the basic latin letters the regexes capture.
-/

def snakeToCamelList : List Char → List Char
  | [] => []
  | [c] => [c]
  | c :: d :: rest =>
    if c = '_' && isAsciiLower d then d.toUpper :: snakeToCamelList rest
    else c :: snakeToCamelList (d :: rest)

def camelToSnakeList : List Char → List Char
  | [] => []
  | c :: rest =>
    if isAsciiUpper c then '_' :: c.toLower :: camelToSnakeList rest
    else c :: camelToSnakeList rest

/-- `snakeToCamel` of caseConversion.ts. -/
def snakeToCamel (str : String) : String := ⟨snakeToCamelList str.data⟩

/-- `camelToSnake` of caseConversion.ts. -/
def camelToSnake (str : String) : String := ⟨camelToSnakeList str.data⟩

theorem snakeToCamel_sample : snakeToCamel "first_name" = "firstName" := by decide

theorem camelToSnake_sample : camelToSnake "firstName" = "first_name" := by decide

theorem snakeToCamel_double_underscore : snakeToCamel "a__b" = "a_B" := by decide

/-! ### Character-level lemmas -/

theorem Char.toLower_toUpper_of_upper (c : Char) (h : isAsciiUpper c = true) :
    c.toLower.toUpper = c := by
  have hc := Char.ofNat_toNat c
  simp only [isAsciiUpper, Bool.and_eq_true, decide_eq_true_eq] at h
  obtain ⟨h1, h2⟩ := h
  rw [← hc]
  generalize c.toNat = n at h1 h2
  interval_cases n <;> decide

theorem isAsciiLower_toLower_of_upper (c : Char) (h : isAsciiUpper c = true) :
    isAsciiLower c.toLower = true := by
  have hc := Char.ofNat_toNat c
  simp only [isAsciiUpper, Bool.and_eq_true, decide_eq_true_eq] at h
  obtain ⟨h1, h2⟩ := h
  rw [← hc]
  generalize c.toNat = n at h1 h2
  interval_cases n <;> decide

theorem ne_underscore_of_upper (c : Char) (h : isAsciiUpper c = true) : c ≠ '_' :=
  fun hEq => absurd (hEq ▸ h) (by decide)

theorem ne_underscore_of_lower (c : Char) (h : isAsciiLower c = true) : c ≠ '_' :=
  fun hEq => absurd (hEq ▸ h) (by decide)

theorem not_lower_toUpper_of_lower (c : Char) (h : isAsciiLower c = true) :
    isAsciiLower c.toUpper = false := by
  have hc := Char.ofNat_toNat c
  simp only [isAsciiLower, Bool.and_eq_true, decide_eq_true_eq] at h
  obtain ⟨h1, h2⟩ := h
  rw [← hc]
  generalize c.toNat = n at h1 h2
  interval_cases n <;> decide

theorem not_upper_toLower_of_upper (c : Char) (h : isAsciiUpper c = true) :
    isAsciiUpper c.toLower = false := by
  have hc := Char.ofNat_toNat c
  simp only [isAsciiUpper, Bool.and_eq_true, decide_eq_true_eq] at h
  obtain ⟨h1, h2⟩ := h
  rw [← hc]
  generalize c.toNat = n at h1 h2
  interval_cases n <;> decide

/-! ### List-level lemmas about the two scans -/

theorem snakeToCamelList_cons_of_ne (c : Char) (hc : c ≠ '_') (xs : List Char) :
    snakeToCamelList (c :: xs) = c :: snakeToCamelList xs := by
  cases xs with
  | nil => rfl
  | cons d rest =>
    rw [snakeToCamelList]
    simp [hc]

/-- Round trip on letter-only character lists (capitals allowed anywhere). -/
theorem roundtripList (l : List Char)
    (h : ∀ c ∈ l, isAsciiUpper c = true ∨ isAsciiLower c = true) :
    snakeToCamelList (camelToSnakeList l) = l := by
  induction l with
  | nil => rfl
  | cons c rest ih =>
    have hc := h c (List.mem_cons_self c rest)
    have hrest : ∀ x ∈ rest, isAsciiUpper x = true ∨ isAsciiLower x = true :=
      fun x hx => h x (List.mem_cons_of_mem c hx)
    cases hc with
    | inl hUp =>
      rw [camelToSnakeList, if_pos hUp, snakeToCamelList]
      simp [isAsciiLower_toLower_of_upper c hUp, Char.toLower_toUpper_of_upper c hUp, ih hrest]
    | inr hLo =>
      have hne : isAsciiUpper c = false := by
        simp only [isAsciiUpper, isAsciiLower, Bool.and_eq_true, decide_eq_true_eq] at hLo ⊢
        simp only [Bool.and_eq_false_iff, decide_eq_false_iff_not]
        omega
      rw [camelToSnakeList, if_neg (by simp [hne])]
      rw [snakeToCamelList_cons_of_ne c (ne_underscore_of_lower c hLo)]
      rw [ih hrest]

/-- Lift a list-level equation to the `String` wrappers. -/
theorem string_data_eq {l : List Char} {s : String} (h : l = s.data) :
    String.mk l = s := by
  cases s
  exact congrArg String.mk h

/-! ### Keys fixed by `snakeToCamel`: no underscore directly before a lower-case letter -/

def noSnakeSeg : List Char → Bool
  | [] => true
  | [_] => true
  | c :: d :: rest => !(c = '_' && isAsciiLower d) && noSnakeSeg (d :: rest)

theorem noSnakeSeg_cons (c : Char) (xs : List Char) (hc : c ≠ '_')
    (h : noSnakeSeg xs = true) : noSnakeSeg (c :: xs) = true := by
  cases xs with
  | nil => rfl
  | cons d rest =>
    rw [noSnakeSeg]
    simp [hc, h]

theorem snakeToCamelList_fixed (l : List Char) (h : noSnakeSeg l = true) :
    snakeToCamelList l = l := by
  induction l using snakeToCamelList.induct with
  | case1 => rfl
  | case2 c => rfl
  | case3 c d rest hcond ih =>
    rw [noSnakeSeg] at h
    simp only [hcond, Bool.not_true, Bool.false_and, Bool.false_eq_true] at h
  | case4 c d rest hcond ih =>
    rw [noSnakeSeg] at h
    simp only [Bool.and_eq_true, Bool.not_eq_eq_eq_not, Bool.not_true] at h
    rw [snakeToCamelList, if_neg hcond, ih h.2]

theorem upper_toUpper_of_lower (c : Char) (h : isAsciiLower c = true) :
    isAsciiUpper c.toUpper = true := by
  have hc := Char.ofNat_toNat c
  simp only [isAsciiLower, Bool.and_eq_true, decide_eq_true_eq] at h
  obtain ⟨h1, h2⟩ := h
  rw [← hc]
  generalize c.toNat = n at h1 h2
  interval_cases n <;> decide

theorem head_of_snakeToCamelList_lower (l : List Char) :
    ∀ y t, snakeToCamelList l = y :: t → isAsciiLower y = true → l.head? = some y := by
  induction l using snakeToCamelList.induct with
  | case1 => intro y t hEq; exact absurd hEq (by simp [snakeToCamelList])
  | case2 c =>
    intro y t hEq _
    rw [snakeToCamelList] at hEq
    cases hEq
    rfl
  | case3 c d rest hcond ih =>
    intro y t hEq hy
    rw [snakeToCamelList, if_pos hcond] at hEq
    cases hEq
    simp only [Bool.and_eq_true, decide_eq_true_eq] at hcond
    exact absurd hy (by simp [not_lower_toUpper_of_lower d hcond.2])
  | case4 c d rest hcond ih =>
    intro y t hEq _
    rw [snakeToCamelList, if_neg hcond] at hEq
    cases hEq
    rfl

theorem noSnakeSeg_snakeToCamelList (l : List Char) :
    noSnakeSeg (snakeToCamelList l) = true := by
  induction l using snakeToCamelList.induct with
  | case1 => rfl
  | case2 c => rfl
  | case3 c d rest hcond ih =>
    rw [snakeToCamelList, if_pos hcond]
    simp only [Bool.and_eq_true, decide_eq_true_eq] at hcond
    exact noSnakeSeg_cons _ _
      (ne_underscore_of_upper _ (upper_toUpper_of_lower d hcond.2)) ih
  | case4 c d rest hcond ih =>
    rw [snakeToCamelList, if_neg hcond]
    by_cases hc : c = '_'
    · subst hc
      cases hout : snakeToCamelList (d :: rest) with
      | nil => rfl
      | cons y t =>
        rw [noSnakeSeg]
        rw [hout] at ih
        simp only [ih, Bool.and_true]
        have hylow : isAsciiLower y = false := by
          by_contra hy
          rw [Bool.not_eq_false] at hy
          have := head_of_snakeToCamelList_lower (d :: rest) y t hout hy
          simp only [List.head?_cons, Option.some.injEq] at this
          subst this
          simp only [Bool.and_eq_true, decide_eq_true_eq, not_and] at hcond
          exact absurd hy (hcond trivial)
        simp [hylow]
    · exact noSnakeSeg_cons _ _ hc ih

theorem snakeToCamelList_idem (l : List Char) :
    snakeToCamelList (snakeToCamelList l) = snakeToCamelList l :=
  snakeToCamelList_fixed _ (noSnakeSeg_snakeToCamelList l)

/-! ### Keys fixed by `camelToSnake`: no upper-case letters -/

def noAsciiUpper (l : List Char) : Bool := l.all (fun c => !isAsciiUpper c)

theorem camelToSnakeList_fixed (l : List Char) (h : noAsciiUpper l = true) :
    camelToSnakeList l = l := by
  induction l with
  | nil => rfl
  | cons c rest ih =>
    simp only [noAsciiUpper, List.all_cons, Bool.and_eq_true, Bool.not_eq_eq_eq_not,
      Bool.not_true] at h
    rw [camelToSnakeList, if_neg (by simp [h.1])]
    rw [ih h.2]

/-- C1: For every key k composed solely of letters and medial capitals (no
separators, digits, or leading capitals), converting to the wire convention
and back is the identity: `snakeToCamel (camelToSnake k) = k`. -/
theorem snakeToCamel_camelToSnake_id (k : String)
    (hletters : ∀ c ∈ k.data, isAsciiUpper c = true ∨ isAsciiLower c = true)
    (hlead : ∀ c, k.data.head? = some c → isAsciiLower c = true) :
    snakeToCamel (camelToSnake k) = k := by
  rw [snakeToCamel, camelToSnake]
  exact string_data_eq (roundtripList k.data hletters)

/-- C1 witness: the round trip is the identity on the concrete key "firstName". -/
theorem snakeToCamel_camelToSnake_id_witness :
    snakeToCamel (camelToSnake "firstName") = "firstName" :=
  snakeToCamel_camelToSnake_id "firstName" (by decide) (by decide)

/-! ## JSON-like runtime values

`JVal` models the JavaScript values flowing through `deepSnakeToCamel` /
`deepCamelToSnake`: primitives (`null`, `undefined`, booleans, numbers,
strings — numbers are modelled as integers, their values are never inspected),
arrays, plain objects (ordered own enumerable string-keyed entries), and
`Date`-like opaque objects. For a `Date`, `typeof` is `'object'`,
`Array.isArray` is `false`, and `Object.entries` is `[]` (a `Date` has no own
enumerable properties); the payload `t` stands for its internal timestamp.
-/

inductive JVal where
  | null : JVal
  | undef : JVal
  | bool (b : Bool) : JVal
  | num (n : Int) : JVal
  | str (s : String) : JVal
  | arr (elems : List JVal) : JVal
  | obj (entries : List (String × JVal)) : JVal
  | date (t : Int) : JVal

/-- JavaScript assignment `result[k] = v` on the plain object literal
`result`, in own-enumeration-order terms: assigning the key `"__proto__"`
invokes the inherited `Object.prototype.__proto__` accessor and creates no own
enumerable property (for a primitive `v` the setter is a complete no-op; for
an object `v` it mutates only the internal prototype, which `Object.entries`
never shows — prototype state after such an assignment is outside this model);
assigning an existing own key overwrites its value in place, keeping the key's
original position; assigning a fresh key appends it. -/
def jsAssign (res : List (String × JVal)) (k : String) (v : JVal) :
    List (String × JVal) :=
  if k = "__proto__" then res
  else if (res.map Prod.fst).contains k then
    res.map (fun e => if e.1 = k then (e.1, v) else e)
  else res ++ [(k, v)]

/-- The loop `const result = {}; for (const [key, value] of ps) result[key] = value`:
a left fold of `jsAssign` starting from the empty object. -/
def buildObj (ps : List (String × JVal)) : List (String × JVal) :=
  ps.foldl (fun res p => jsAssign res p.1 p.2) []

/-- Keys that make `buildObj` keep every entry: pairwise distinct and none the
special name `"__proto__"`. Own enumerable keys of any plain-object `result`
built by `jsAssign` always satisfy this. -/
def plainKeyList : List String → Bool
  | [] => true
  | k :: ks => !(k == "__proto__") && !(ks.contains k) && plainKeyList ks

/-- `deepSnakeToCamel` of caseConversion.ts. The first branch is the
`Array.isArray(data)` test; the second is `data !== null && typeof data === 'object'`,
which also captures `Date`-like opaque objects and destructures them through
`Object.entries` (empty for a `Date`); everything else is returned as-is.
The object branch converts each entry and builds `result` by JS assignment
(`buildObj`), so colliding rewritten keys overwrite (later wins) and a
`"__proto__"` key creates no own entry. -/
def deepSnakeToCamel : JVal → JVal
  | .arr elems => .arr (elems.attach.map (fun x => deepSnakeToCamel x.1))
  | .obj entries => .obj (buildObj (entries.attach.map
      (fun e => (snakeToCamel e.1.1, deepSnakeToCamel e.1.2))))
  | .date _ => .obj []
  | v => v
termination_by v => sizeOf v
decreasing_by
  · have := List.sizeOf_lt_of_mem x.2
    simp only [JVal.arr.sizeOf_spec]
    omega
  · have h1 := List.sizeOf_lt_of_mem e.2
    obtain ⟨⟨k, v⟩, hm⟩ := e
    simp only [JVal.obj.sizeOf_spec, Prod.mk.sizeOf_spec] at *
    omega

/-- `deepCamelToSnake` of caseConversion.ts (same shape, other direction). -/
def deepCamelToSnake : JVal → JVal
  | .arr elems => .arr (elems.attach.map (fun x => deepCamelToSnake x.1))
  | .obj entries => .obj (buildObj (entries.attach.map
      (fun e => (camelToSnake e.1.1, deepCamelToSnake e.1.2))))
  | .date _ => .obj []
  | v => v
termination_by v => sizeOf v
decreasing_by
  · have := List.sizeOf_lt_of_mem x.2
    simp only [JVal.arr.sizeOf_spec]
    omega
  · have h1 := List.sizeOf_lt_of_mem e.2
    obtain ⟨⟨k, v⟩, hm⟩ := e
    simp only [JVal.obj.sizeOf_spec, Prod.mk.sizeOf_spec] at *
    omega

@[simp] theorem deepSnakeToCamel_null : deepSnakeToCamel .null = .null := by
  rw [deepSnakeToCamel] <;> simp

@[simp] theorem deepSnakeToCamel_undef : deepSnakeToCamel .undef = .undef := by
  rw [deepSnakeToCamel] <;> simp

@[simp] theorem deepSnakeToCamel_bool (b : Bool) :
    deepSnakeToCamel (.bool b) = .bool b := by
  rw [deepSnakeToCamel] <;> simp

@[simp] theorem deepSnakeToCamel_num (n : Int) :
    deepSnakeToCamel (.num n) = .num n := by
  rw [deepSnakeToCamel] <;> simp

@[simp] theorem deepSnakeToCamel_str (s : String) :
    deepSnakeToCamel (.str s) = .str s := by
  rw [deepSnakeToCamel] <;> simp

@[simp] theorem deepSnakeToCamel_date (t : Int) :
    deepSnakeToCamel (.date t) = .obj [] := by
  rw [deepSnakeToCamel]

@[simp] theorem deepSnakeToCamel_arr (elems : List JVal) :
    deepSnakeToCamel (.arr elems) = .arr (elems.map deepSnakeToCamel) := by
  rw [deepSnakeToCamel]
  congr 1
  exact List.attach_map_coe elems deepSnakeToCamel

@[simp] theorem deepSnakeToCamel_obj (entries : List (String × JVal)) :
    deepSnakeToCamel (.obj entries) =
      .obj (buildObj (entries.map (fun e => (snakeToCamel e.1, deepSnakeToCamel e.2)))) := by
  rw [deepSnakeToCamel]
  exact congrArg (fun l => JVal.obj (buildObj l))
    (List.attach_map_coe entries (fun e => (snakeToCamel e.1, deepSnakeToCamel e.2)))

@[simp] theorem deepCamelToSnake_null : deepCamelToSnake .null = .null := by
  rw [deepCamelToSnake] <;> simp

@[simp] theorem deepCamelToSnake_undef : deepCamelToSnake .undef = .undef := by
  rw [deepCamelToSnake] <;> simp

@[simp] theorem deepCamelToSnake_bool (b : Bool) :
    deepCamelToSnake (.bool b) = .bool b := by
  rw [deepCamelToSnake] <;> simp

@[simp] theorem deepCamelToSnake_num (n : Int) :
    deepCamelToSnake (.num n) = .num n := by
  rw [deepCamelToSnake] <;> simp

@[simp] theorem deepCamelToSnake_str (s : String) :
    deepCamelToSnake (.str s) = .str s := by
  rw [deepCamelToSnake] <;> simp

@[simp] theorem deepCamelToSnake_date (t : Int) :
    deepCamelToSnake (.date t) = .obj [] := by
  rw [deepCamelToSnake]

@[simp] theorem deepCamelToSnake_arr (elems : List JVal) :
    deepCamelToSnake (.arr elems) = .arr (elems.map deepCamelToSnake) := by
  rw [deepCamelToSnake]
  congr 1
  exact List.attach_map_coe elems deepCamelToSnake

@[simp] theorem deepCamelToSnake_obj (entries : List (String × JVal)) :
    deepCamelToSnake (.obj entries) =
      .obj (buildObj (entries.map (fun e => (camelToSnake e.1, deepCamelToSnake e.2)))) := by
  rw [deepCamelToSnake]
  exact congrArg (fun l => JVal.obj (buildObj l))
    (List.attach_map_coe entries (fun e => (camelToSnake e.1, deepCamelToSnake e.2)))


/-! ### JS assignment lemmas: when `buildObj` keeps every entry, and what it
can produce -/

@[simp] theorem buildObj_nil : buildObj [] = [] := rfl

theorem jsAssign_append (res : List (String × JVal)) (k : String) (v : JVal)
    (h1 : k ≠ "__proto__") (h2 : ¬ k ∈ res.map Prod.fst) :
    jsAssign res k v = res ++ [(k, v)] := by
  rw [jsAssign, if_neg h1, if_neg (by simp [h2])]

theorem map_fst_jsAssign_mem (res : List (String × JVal)) (k : String) (v : JVal)
    (hc : k ∈ res.map Prod.fst) (hk : k ≠ "__proto__") :
    (jsAssign res k v).map Prod.fst = res.map Prod.fst := by
  rw [jsAssign, if_neg hk, if_pos (by simp [hc]), List.map_map]
  apply List.map_congr_left
  intro e he
  by_cases h : e.1 = k <;> simp [h]

theorem plainKeyList_cons_iff (c : String) (cs : List String) :
    plainKeyList (c :: cs) = true ↔
      (c ≠ "__proto__" ∧ ¬ c ∈ cs ∧ plainKeyList cs = true) := by
  rw [plainKeyList]
  simp [and_assoc]

theorem plainKeyList_append_key (ks : List String) (k : String)
    (h : plainKeyList ks = true) (hk : k ≠ "__proto__") (hn : ¬ k ∈ ks) :
    plainKeyList (ks ++ [k]) = true := by
  induction ks with
  | nil =>
    rw [List.nil_append]
    exact (plainKeyList_cons_iff k []).2 ⟨hk, by simp, rfl⟩
  | cons c cs ih =>
    rw [plainKeyList_cons_iff] at h
    obtain ⟨h1, h2, h3⟩ := h
    have hn2 : ¬ k ∈ cs := fun hm => hn (List.mem_cons_of_mem c hm)
    have hkc : k ≠ c := fun hEq => hn (hEq ▸ List.mem_cons_self c cs)
    rw [List.cons_append, plainKeyList_cons_iff]
    refine ⟨h1, ?_, ih h3 hn2⟩
    simp only [List.mem_append, List.mem_singleton]
    rintro (hm | hm)
    · exact h2 hm
    · exact hkc hm.symm

theorem plainKeyList_jsAssign (res : List (String × JVal)) (k : String) (v : JVal)
    (h : plainKeyList (res.map Prod.fst) = true) :
    plainKeyList ((jsAssign res k v).map Prod.fst) = true := by
  by_cases hp : k = "__proto__"
  · rw [jsAssign, if_pos hp]
    exact h
  · by_cases hc : k ∈ res.map Prod.fst
    · rw [map_fst_jsAssign_mem res k v hc hp]
      exact h
    · rw [jsAssign_append res k v hp hc]
      simp only [List.map_append, List.map_cons, List.map_nil]
      exact plainKeyList_append_key _ _ h hp hc

theorem plainKeyList_foldl (ps : List (String × JVal)) :
    ∀ res, plainKeyList (res.map Prod.fst) = true →
      plainKeyList
        ((ps.foldl (fun r p => jsAssign r p.1 p.2) res).map Prod.fst) = true := by
  induction ps with
  | nil =>
    intro res h
    simpa using h
  | cons p ps ih =>
    intro res h
    rw [List.foldl_cons]
    exact ih _ (plainKeyList_jsAssign res p.1 p.2 h)

/-- Whatever the input, the keys of an object built by JS assignment are
pairwise distinct and never `"__proto__"`. -/
theorem plainKeyList_buildObj (ps : List (String × JVal)) :
    plainKeyList ((buildObj ps).map Prod.fst) = true :=
  plainKeyList_foldl ps [] rfl

theorem mem_jsAssign (res : List (String × JVal)) (k : String) (v : JVal)
    (q : String × JVal) (hq : q ∈ jsAssign res k v) : q ∈ res ∨ q = (k, v) := by
  rw [jsAssign] at hq
  by_cases hp : k = "__proto__"
  · rw [if_pos hp] at hq
    exact Or.inl hq
  · rw [if_neg hp] at hq
    by_cases hc : ((res.map Prod.fst).contains k) = true
    · rw [if_pos hc] at hq
      obtain ⟨e, he, hEq⟩ := List.mem_map.1 hq
      by_cases h1 : e.1 = k
      · right
        rw [← hEq]
        simp [h1]
      · left
        rw [← hEq]
        simpa [h1] using he
    · rw [if_neg hc] at hq
      rcases List.mem_append.1 hq with hm | hm
      · exact Or.inl hm
      · right
        simpa using hm

theorem mem_foldl_jsAssign (ps : List (String × JVal)) :
    ∀ res q, q ∈ ps.foldl (fun r p => jsAssign r p.1 p.2) res → q ∈ res ∨ q ∈ ps := by
  induction ps with
  | nil =>
    intro res q h
    exact Or.inl (by simpa using h)
  | cons p ps ih =>
    intro res q h
    rw [List.foldl_cons] at h
    rcases ih _ q h with hm | hm
    · rcases mem_jsAssign res p.1 p.2 q hm with hm2 | hm2
      · exact Or.inl hm2
      · right
        rw [hm2]
        exact List.mem_cons_self p ps
    · exact Or.inr (List.mem_cons_of_mem p hm)

/-- Every entry of the built object is one of the assigned pairs. -/
theorem mem_buildObj (ps : List (String × JVal)) (q : String × JVal)
    (h : q ∈ buildObj ps) : q ∈ ps := by
  rcases mem_foldl_jsAssign ps [] q h with hm | hm
  · simp at hm
  · exact hm

theorem foldl_jsAssign_of_plain (ps : List (String × JVal)) :
    ∀ res, plainKeyList (ps.map Prod.fst) = true →
      (∀ p ∈ ps, ¬ p.1 ∈ res.map Prod.fst) →
      ps.foldl (fun r p => jsAssign r p.1 p.2) res = res ++ ps := by
  induction ps with
  | nil =>
    intro res _ _
    simp
  | cons p ps ih =>
    intro res hplain hdisj
    rw [List.map_cons, plainKeyList_cons_iff] at hplain
    obtain ⟨h1, h2, h3⟩ := hplain
    rw [List.foldl_cons,
      jsAssign_append res p.1 p.2 h1 (hdisj p (List.mem_cons_self p ps))]
    have hdisj2 : ∀ q ∈ ps, ¬ q.1 ∈ (res ++ [(p.1, p.2)]).map Prod.fst := by
      intro q hq
      simp only [List.map_append, List.map_cons, List.map_nil, List.mem_append,
        List.mem_singleton]
      rintro (hm | hm)
      · exact hdisj q (List.mem_cons_of_mem p hq) hm
      · exact h2 (hm ▸ List.mem_map_of_mem Prod.fst hq)
    rw [ih _ h3 hdisj2, List.append_assoc, List.singleton_append]

/-- `buildObj` keeps every entry, in order, exactly when the keys are pairwise
distinct and none is `"__proto__"`. -/
theorem buildObj_of_plain (ps : List (String × JVal))
    (h : plainKeyList (ps.map Prod.fst) = true) : buildObj ps = ps := by
  have hgo := foldl_jsAssign_of_plain ps [] h (by intro p hp; simp)
  simpa [buildObj] using hgo

/-! ## Value predicates and the structure skeleton -/

/-- Primitive values: `typeof` is not `'object'` (or the value is `null`), so
both deep converters return them as-is. -/
def isPrimitive : JVal → Bool
  | .null | .undef | .bool _ | .num _ | .str _ => true
  | .arr _ | .obj _ | .date _ => false

/-- The spec's Transcodable domain: primitives, sequences of Transcodable,
string-keyed mappings of Transcodable — `Date`-like opaque objects excluded. -/
def Transcodable : JVal → Bool
  | .arr elems => elems.attach.all (fun x => Transcodable x.1)
  | .obj entries => entries.attach.all (fun e => Transcodable e.1.2)
  | .date _ => false
  | _ => true
termination_by v => sizeOf v
decreasing_by
  · have := List.sizeOf_lt_of_mem x.2
    simp only [JVal.arr.sizeOf_spec]
    omega
  · have h1 := List.sizeOf_lt_of_mem e.2
    obtain ⟨⟨k, v⟩, hm⟩ := e
    simp only [JVal.obj.sizeOf_spec, Prod.mk.sizeOf_spec] at *
    omega

@[simp] theorem Transcodable_null : Transcodable .null = true := by
  rw [Transcodable] <;> simp

@[simp] theorem Transcodable_undef : Transcodable .undef = true := by
  rw [Transcodable] <;> simp

@[simp] theorem Transcodable_bool (b : Bool) : Transcodable (.bool b) = true := by
  rw [Transcodable] <;> simp

@[simp] theorem Transcodable_num (n : Int) : Transcodable (.num n) = true := by
  rw [Transcodable] <;> simp

@[simp] theorem Transcodable_str (s : String) : Transcodable (.str s) = true := by
  rw [Transcodable] <;> simp

@[simp] theorem Transcodable_date (t : Int) : Transcodable (.date t) = false := by
  rw [Transcodable]

@[simp] theorem Transcodable_arr (elems : List JVal) :
    Transcodable (.arr elems) = elems.all Transcodable := by
  rw [Transcodable]
  apply Bool.eq_iff_iff.2
  simp [List.all_eq_true]

@[simp] theorem Transcodable_obj (entries : List (String × JVal)) :
    Transcodable (.obj entries) = entries.all (fun e => Transcodable e.2) := by
  rw [Transcodable]
  apply Bool.eq_iff_iff.2
  simp [List.all_eq_true]

/-- The structure skeleton of a value: primitive leaves erased to a point,
array/object spines kept (object entries reduced to their values). Transcoding
is structure-preserving exactly when it preserves `shape`. -/
inductive JShape where
  | prim : JShape
  | arrS (elems : List JShape) : JShape
  | objS (vals : List JShape) : JShape

def shape : JVal → JShape
  | .arr elems => .arrS (elems.attach.map (fun x => shape x.1))
  | .obj entries => .objS (entries.attach.map (fun e => shape e.1.2))
  | _ => .prim
termination_by v => sizeOf v
decreasing_by
  · have := List.sizeOf_lt_of_mem x.2
    simp only [JVal.arr.sizeOf_spec]
    omega
  · have h1 := List.sizeOf_lt_of_mem e.2
    obtain ⟨⟨k, v⟩, hm⟩ := e
    simp only [JVal.obj.sizeOf_spec, Prod.mk.sizeOf_spec] at *
    omega

@[simp] theorem shape_null : shape .null = .prim := by
  rw [shape] <;> simp

@[simp] theorem shape_undef : shape .undef = .prim := by
  rw [shape] <;> simp

@[simp] theorem shape_bool (b : Bool) : shape (.bool b) = .prim := by
  rw [shape] <;> simp

@[simp] theorem shape_num (n : Int) : shape (.num n) = .prim := by
  rw [shape] <;> simp

@[simp] theorem shape_str (s : String) : shape (.str s) = .prim := by
  rw [shape] <;> simp

@[simp] theorem shape_date (t : Int) : shape (.date t) = .prim := by
  rw [shape] <;> simp

@[simp] theorem shape_arr (elems : List JVal) :
    shape (.arr elems) = .arrS (elems.map shape) := by
  rw [shape]
  congr 1
  exact List.attach_map_coe elems shape

@[simp] theorem shape_obj (entries : List (String × JVal)) :
    shape (.obj entries) = .objS (entries.map (fun e => shape e.2)) := by
  rw [shape]
  congr 1
  exact List.attach_map_coe entries (fun e => shape e.2)

/-- Values all of whose mapping keys are already in the local (camelCase)
convention: no key anywhere contains an underscore directly followed by a
lower-case letter, and no `Date`-like opaque object occurs. -/
def camelKeys : JVal → Bool
  | .arr elems => elems.attach.all (fun x => camelKeys x.1)
  | .obj entries => entries.attach.all
      (fun e => noSnakeSeg e.1.1.data && camelKeys e.1.2)
  | .date _ => false
  | _ => true
termination_by v => sizeOf v
decreasing_by
  · have := List.sizeOf_lt_of_mem x.2
    simp only [JVal.arr.sizeOf_spec]
    omega
  · have h1 := List.sizeOf_lt_of_mem e.2
    obtain ⟨⟨k, v⟩, hm⟩ := e
    simp only [JVal.obj.sizeOf_spec, Prod.mk.sizeOf_spec] at *
    omega

@[simp] theorem camelKeys_null : camelKeys .null = true := by
  rw [camelKeys] <;> simp

@[simp] theorem camelKeys_undef : camelKeys .undef = true := by
  rw [camelKeys] <;> simp

@[simp] theorem camelKeys_bool (b : Bool) : camelKeys (.bool b) = true := by
  rw [camelKeys] <;> simp

@[simp] theorem camelKeys_num (n : Int) : camelKeys (.num n) = true := by
  rw [camelKeys] <;> simp

@[simp] theorem camelKeys_str (s : String) : camelKeys (.str s) = true := by
  rw [camelKeys] <;> simp

@[simp] theorem camelKeys_date (t : Int) : camelKeys (.date t) = false := by
  rw [camelKeys]

@[simp] theorem camelKeys_arr (elems : List JVal) :
    camelKeys (.arr elems) = elems.all camelKeys := by
  rw [camelKeys]
  apply Bool.eq_iff_iff.2
  simp [List.all_eq_true]

@[simp] theorem camelKeys_obj (entries : List (String × JVal)) :
    camelKeys (.obj entries) =
      entries.all (fun e => noSnakeSeg e.1.data && camelKeys e.2) := by
  rw [camelKeys]
  apply Bool.eq_iff_iff.2
  simp [List.all_eq_true]

/-- Values all of whose mapping keys are already in the wire (snake_case)
convention: no key anywhere contains an upper-case letter, no `Date`-like
opaque object occurs. -/
def snakeKeys : JVal → Bool
  | .arr elems => elems.attach.all (fun x => snakeKeys x.1)
  | .obj entries => entries.attach.all
      (fun e => noAsciiUpper e.1.1.data && snakeKeys e.1.2)
  | .date _ => false
  | _ => true
termination_by v => sizeOf v
decreasing_by
  · have := List.sizeOf_lt_of_mem x.2
    simp only [JVal.arr.sizeOf_spec]
    omega
  · have h1 := List.sizeOf_lt_of_mem e.2
    obtain ⟨⟨k, v⟩, hm⟩ := e
    simp only [JVal.obj.sizeOf_spec, Prod.mk.sizeOf_spec] at *
    omega

@[simp] theorem snakeKeys_null : snakeKeys .null = true := by
  rw [snakeKeys] <;> simp

@[simp] theorem snakeKeys_undef : snakeKeys .undef = true := by
  rw [snakeKeys] <;> simp

@[simp] theorem snakeKeys_bool (b : Bool) : snakeKeys (.bool b) = true := by
  rw [snakeKeys] <;> simp

@[simp] theorem snakeKeys_num (n : Int) : snakeKeys (.num n) = true := by
  rw [snakeKeys] <;> simp

@[simp] theorem snakeKeys_str (s : String) : snakeKeys (.str s) = true := by
  rw [snakeKeys] <;> simp

@[simp] theorem snakeKeys_date (t : Int) : snakeKeys (.date t) = false := by
  rw [snakeKeys]

@[simp] theorem snakeKeys_arr (elems : List JVal) :
    snakeKeys (.arr elems) = elems.all snakeKeys := by
  rw [snakeKeys]
  apply Bool.eq_iff_iff.2
  simp [List.all_eq_true]

@[simp] theorem snakeKeys_obj (entries : List (String × JVal)) :
    snakeKeys (.obj entries) =
      entries.all (fun e => noAsciiUpper e.1.data && snakeKeys e.2) := by
  rw [snakeKeys]
  apply Bool.eq_iff_iff.2
  simp [List.all_eq_true]

/-- Member-wise induction for the nested inductive `JVal`. -/
theorem JVal.inductionOn {P : JVal → Prop} (hnull : P .null) (hundef : P .undef)
    (hbool : ∀ b, P (.bool b)) (hnum : ∀ n, P (.num n)) (hstr : ∀ s, P (.str s))
    (hdate : ∀ t, P (.date t))
    (harr : ∀ elems, (∀ x ∈ elems, P x) → P (.arr elems))
    (hobj : ∀ entries, (∀ e ∈ entries, P e.2) → P (.obj entries)) :
    ∀ v, P v
  | .null => hnull
  | .undef => hundef
  | .bool b => hbool b
  | .num n => hnum n
  | .str s => hstr s
  | .date t => hdate t
  | .arr elems => harr elems (fun x hx =>
      JVal.inductionOn hnull hundef hbool hnum hstr hdate harr hobj x)
  | .obj entries => hobj entries (fun e he =>
      JVal.inductionOn hnull hundef hbool hnum hstr hdate harr hobj e.2)
termination_by v => sizeOf v
decreasing_by
  · have := List.sizeOf_lt_of_mem hx
    simp only [JVal.arr.sizeOf_spec]
    omega
  · have h1 := List.sizeOf_lt_of_mem he
    obtain ⟨k, v2⟩ := e
    simp only [JVal.obj.sizeOf_spec, Prod.mk.sizeOf_spec] at *
    omega

/-! ### String-level corollaries -/

theorem snakeToCamel_fixed_of_noSnakeSeg (s : String) (h : noSnakeSeg s.data = true) :
    snakeToCamel s = s := by
  rw [snakeToCamel]
  exact string_data_eq (snakeToCamelList_fixed s.data h)

theorem camelToSnake_fixed_of_noAsciiUpper (s : String) (h : noAsciiUpper s.data = true) :
    camelToSnake s = s := by
  rw [camelToSnake]
  exact string_data_eq (camelToSnakeList_fixed s.data h)

theorem snakeToCamel_idem (s : String) :
    snakeToCamel (snakeToCamel s) = snakeToCamel s := by
  rw [snakeToCamel, snakeToCamel]
  exact congrArg String.mk (snakeToCamelList_idem s.data)

/-! ### C2: failure semantics of the deep converters -/

/-- C2 counterexample: a `Date`-like opaque object is not returned as-is by
`deepSnakeToCamel` — it is destructured (through `Object.entries`) into the
empty plain mapping. -/
theorem deepSnakeToCamel_date_changed :
    deepSnakeToCamel (JVal.date 0) ≠ JVal.date 0 := by
  simp

/-- C2 amended: the deep transcoding functions are total (they never fail) and
return every primitive non-object value (`null`, `undefined`, booleans,
numbers, strings) as-is, but a `Date`-like opaque object is treated as a plain
mapping and destructured into its (empty) set of own enumerable entries,
yielding the empty mapping rather than the original object. -/
theorem deep_total_primitives_asis_date_destructured (v : JVal) (t : Int) :
    (isPrimitive v = true → deepSnakeToCamel v = v ∧ deepCamelToSnake v = v) ∧
    deepSnakeToCamel (JVal.date t) = JVal.obj [] ∧
    deepCamelToSnake (JVal.date t) = JVal.obj [] := by
  refine ⟨?_, by simp, by simp⟩
  intro h
  cases v <;> simp_all [isPrimitive]

/-! ### Keys safe under JS assignment

`keysSafeBy f` holds when, at every mapping of the value, the keys rewritten
by `f` are pairwise distinct and none is the special name `"__proto__"` —
exactly the condition under which `buildObj` keeps every rewritten entry. -/

def keysSafeBy (f : String → String) : JVal → Bool
  | .arr elems => elems.attach.all (fun x => keysSafeBy f x.1)
  | .obj entries => plainKeyList (entries.map (fun e => f e.1)) &&
      entries.attach.all (fun e => keysSafeBy f e.1.2)
  | _ => true
termination_by v => sizeOf v
decreasing_by
  · have := List.sizeOf_lt_of_mem x.2
    simp only [JVal.arr.sizeOf_spec]
    omega
  · have h1 := List.sizeOf_lt_of_mem e.2
    obtain ⟨⟨k, v⟩, hm⟩ := e
    simp only [JVal.obj.sizeOf_spec, Prod.mk.sizeOf_spec] at *
    omega

@[simp] theorem keysSafeBy_null (f : String → String) : keysSafeBy f .null = true := by
  rw [keysSafeBy] <;> simp

@[simp] theorem keysSafeBy_undef (f : String → String) : keysSafeBy f .undef = true := by
  rw [keysSafeBy] <;> simp

@[simp] theorem keysSafeBy_bool (f : String → String) (b : Bool) :
    keysSafeBy f (.bool b) = true := by
  rw [keysSafeBy] <;> simp

@[simp] theorem keysSafeBy_num (f : String → String) (n : Int) :
    keysSafeBy f (.num n) = true := by
  rw [keysSafeBy] <;> simp

@[simp] theorem keysSafeBy_str (f : String → String) (s : String) :
    keysSafeBy f (.str s) = true := by
  rw [keysSafeBy] <;> simp

@[simp] theorem keysSafeBy_date (f : String → String) (t : Int) :
    keysSafeBy f (.date t) = true := by
  rw [keysSafeBy] <;> simp

@[simp] theorem keysSafeBy_arr (f : String → String) (elems : List JVal) :
    keysSafeBy f (.arr elems) = elems.all (keysSafeBy f) := by
  rw [keysSafeBy]
  apply Bool.eq_iff_iff.2
  simp [List.all_eq_true]

@[simp] theorem keysSafeBy_obj (f : String → String) (entries : List (String × JVal)) :
    keysSafeBy f (.obj entries) =
      (plainKeyList (entries.map (fun e => f e.1)) &&
        entries.all (fun e => keysSafeBy f e.2)) := by
  rw [keysSafeBy]
  apply Bool.eq_iff_iff.2
  simp [List.all_eq_true]

/-- Realizable mapping keys: pairwise distinct and never `"__proto__"` at
every nesting level (what `Object.entries` of objects built by plain JS
assignment always yields). -/
def realKeys : JVal → Bool := keysSafeBy (fun k => k)

theorem realKeys_def (v : JVal) : realKeys v = keysSafeBy (fun k => k) v := rfl

/-! ### C3: deep transcoding is structure-preserving on collision-free Transcodable values -/

/-- The wire-shaped Transcodable mapping `{"a_b": 1, "aB": 2}` whose two
distinct keys are both rewritten to `"aB"`. -/
def collideWire : JVal := .obj [("a_b", .num 1), ("aB", .num 2)]

/-- C3 counterexample: the two-entry Transcodable mapping `{"a_b":1,"aB":2}`
is transcoded to the one-entry `{aB:2}` — the second JS assignment of the
rewritten key `"aB"` overwrites the first (later wins) — so the structure
skeleton is not preserved on the claim's whole domain. -/
theorem deep_structure_collision :
    Transcodable collideWire = true ∧
    deepSnakeToCamel collideWire = JVal.obj [("aB", JVal.num 2)] ∧
    shape (deepSnakeToCamel collideWire) ≠ shape collideWire := by
  have hkey : snakeToCamel "a_b" = "aB" := by decide
  have hkey2 : snakeToCamel "aB" = "aB" := by decide
  have h2 : deepSnakeToCamel collideWire = JVal.obj [("aB", JVal.num 2)] := by
    simp [collideWire, hkey, hkey2, buildObj, jsAssign]
  refine ⟨by simp [collideWire], h2, ?_⟩
  rw [h2]
  simp [collideWire]

theorem shape_deep_aux (v : JVal) : Transcodable v = true →
    (keysSafeBy snakeToCamel v = true → shape (deepSnakeToCamel v) = shape v) ∧
    (keysSafeBy camelToSnake v = true → shape (deepCamelToSnake v) = shape v) := by
  induction v using JVal.inductionOn with
  | hnull => simp
  | hundef => simp
  | hbool b => simp
  | hnum n => simp
  | hstr s => simp
  | hdate t => simp
  | harr elems ih =>
    intro h
    simp only [Transcodable_arr, List.all_eq_true] at h
    constructor
    · intro hs
      simp only [keysSafeBy_arr, List.all_eq_true] at hs
      simp only [deepSnakeToCamel_arr, shape_arr, List.map_map]
      congr 1
      exact List.map_congr_left (fun x hx => (ih x hx (h x hx)).1 (hs x hx))
    · intro hs
      simp only [keysSafeBy_arr, List.all_eq_true] at hs
      simp only [deepCamelToSnake_arr, shape_arr, List.map_map]
      congr 1
      exact List.map_congr_left (fun x hx => (ih x hx (h x hx)).2 (hs x hx))
  | hobj entries ih =>
    intro h
    simp only [Transcodable_obj, List.all_eq_true] at h
    constructor
    · intro hs
      simp only [keysSafeBy_obj, Bool.and_eq_true, List.all_eq_true] at hs
      obtain ⟨hplain, hrec⟩ := hs
      have hpl : plainKeyList
          ((entries.map (fun e => (snakeToCamel e.1, deepSnakeToCamel e.2))).map
            Prod.fst) = true := by
        rw [List.map_map]
        exact hplain
      simp only [deepSnakeToCamel_obj, shape_obj]
      rw [buildObj_of_plain _ hpl, List.map_map]
      congr 1
      refine List.map_congr_left (fun e he => ?_)
      simp only [Function.comp_apply]
      exact (ih e he (h e he)).1 (hrec e he)
    · intro hs
      simp only [keysSafeBy_obj, Bool.and_eq_true, List.all_eq_true] at hs
      obtain ⟨hplain, hrec⟩ := hs
      have hpl : plainKeyList
          ((entries.map (fun e => (camelToSnake e.1, deepCamelToSnake e.2))).map
            Prod.fst) = true := by
        rw [List.map_map]
        exact hplain
      simp only [deepCamelToSnake_obj, shape_obj]
      rw [buildObj_of_plain _ hpl, List.map_map]
      congr 1
      refine List.map_congr_left (fun e he => ?_)
      simp only [Function.comp_apply]
      exact (ih e he (h e he)).2 (hrec e he)

/-- The wire-shaped sample value `[1, "x", null, {"a_b": 2}]` from the spec's
testable properties. -/
def sampleWire : JVal := .arr [.num 1, .str "x", .null, .obj [("a_b", .num 2)]]

/-- C3 amended: on every Transcodable value whose mapping keys — at every
nesting level — are rewritten by the applied direction to pairwise-distinct
names other than `"__proto__"`, both deep converters preserve the structure
skeleton (sequences stay sequences of the same length and order, mappings
stay mappings entry-for-entry), and primitives pass through unchanged. When
rewritten keys collide the later entry wins, and a `"__proto__"` key creates
no own entry, so entries can be lost outside this domain. (The embedding is
pure, so the input is never mutated and the output is a fresh structure by
construction.) -/
theorem deep_structure_preserving (v : JVal) (h : Transcodable v = true)
    (hs : keysSafeBy snakeToCamel v = true) (hc : keysSafeBy camelToSnake v = true) :
    shape (deepSnakeToCamel v) = shape v ∧ shape (deepCamelToSnake v) = shape v ∧
    (isPrimitive v = true → deepSnakeToCamel v = v ∧ deepCamelToSnake v = v) := by
  refine ⟨(shape_deep_aux v h).1 hs, (shape_deep_aux v h).2 hc, ?_⟩
  intro hp
  cases v <;> simp_all [isPrimitive]

/-- C3 witness: shape preservation evaluated on the concrete sample
`[1, "x", null, {"a_b": 2}]`, whose rewritten keys are collision-free. -/
theorem deep_structure_preserving_witness :
    shape (deepSnakeToCamel sampleWire) = shape sampleWire :=
  (deep_structure_preserving sampleWire (by simp [sampleWire])
    (by simp [sampleWire]; decide) (by simp [sampleWire]; decide)).1

/-! ### C7: no-op on already-converted values, idempotence -/

/-- The one-entry mapping `{"__proto__": 1}`, reachable via `JSON.parse`,
whose key is already in the wire (snake_case) convention. -/
def protoWire : JVal := .obj [("__proto__", .num 1)]

/-- C7 counterexample: `{"__proto__": 1}` has its key already in the wire
convention, yet `deepCamelToSnake` is not a no-op on it: the JS assignment
`result["__proto__"] = 1` hits the inherited `Object.prototype` accessor and
creates no own entry, so the result is the empty mapping. -/
theorem deep_snake_noop_fails_on_proto :
    snakeKeys protoWire = true ∧
    deepCamelToSnake protoWire = JVal.obj [] ∧
    deepCamelToSnake protoWire ≠ protoWire := by
  have hkey : camelToSnake "__proto__" = "__proto__" := by decide
  have h2 : deepCamelToSnake protoWire = JVal.obj [] := by
    simp [protoWire, hkey, buildObj, jsAssign]
  refine ⟨by simp [protoWire]; decide, h2, ?_⟩
  rw [h2]
  simp [protoWire]

/-- C7 amended: a value whose mapping keys are all already in the target
convention and — pairwise distinct and never `"__proto__"` — survive JS
assignment unchanged is returned unchanged by the corresponding deep
direction; and `deepSnakeToCamel` is idempotent on every value. -/
theorem deep_target_noop_and_idem (v : JVal) :
    (camelKeys v = true → realKeys v = true → deepSnakeToCamel v = v) ∧
    (snakeKeys v = true → realKeys v = true → deepCamelToSnake v = v) ∧
    deepSnakeToCamel (deepSnakeToCamel v) = deepSnakeToCamel v := by
  induction v using JVal.inductionOn with
  | hnull => simp
  | hundef => simp
  | hbool b => simp
  | hnum n => simp
  | hstr s => simp
  | hdate t => simp
  | harr elems ih =>
    refine ⟨?_, ?_, ?_⟩
    · intro h hr
      simp only [camelKeys_arr, List.all_eq_true] at h
      simp only [realKeys_def, keysSafeBy_arr, List.all_eq_true] at hr
      simp only [deepSnakeToCamel_arr]
      have hpt : ∀ x ∈ elems, deepSnakeToCamel x = id x :=
        fun x hx => (ih x hx).1 (h x hx) (hr x hx)
      rw [List.map_congr_left hpt, List.map_id]
    · intro h hr
      simp only [snakeKeys_arr, List.all_eq_true] at h
      simp only [realKeys_def, keysSafeBy_arr, List.all_eq_true] at hr
      simp only [deepCamelToSnake_arr]
      have hpt : ∀ x ∈ elems, deepCamelToSnake x = id x :=
        fun x hx => (ih x hx).2.1 (h x hx) (hr x hx)
      rw [List.map_congr_left hpt, List.map_id]
    · simp only [deepSnakeToCamel_arr, List.map_map]
      congr 1
      exact List.map_congr_left (fun x hx => (ih x hx).2.2)
  | hobj entries ih =>
    refine ⟨?_, ?_, ?_⟩
    · intro h hr
      simp only [camelKeys_obj, List.all_eq_true, Bool.and_eq_true] at h
      simp only [realKeys_def, keysSafeBy_obj, Bool.and_eq_true, List.all_eq_true] at hr
      obtain ⟨hplain, hrec⟩ := hr
      simp only [deepSnakeToCamel_obj]
      have hpt : ∀ e ∈ entries, (snakeToCamel e.1, deepSnakeToCamel e.2) = id e := by
        intro e he
        obtain ⟨hk, hv⟩ := h e he
        have h1 : snakeToCamel e.1 = e.1 := snakeToCamel_fixed_of_noSnakeSeg e.1 hk
        have h2 : deepSnakeToCamel e.2 = e.2 := (ih e he).1 hv (hrec e he)
        simp [h1, h2]
      rw [List.map_congr_left hpt, List.map_id]
      have hb : buildObj entries = entries := buildObj_of_plain entries hplain
      rw [hb]
    · intro h hr
      simp only [snakeKeys_obj, List.all_eq_true, Bool.and_eq_true] at h
      simp only [realKeys_def, keysSafeBy_obj, Bool.and_eq_true, List.all_eq_true] at hr
      obtain ⟨hplain, hrec⟩ := hr
      simp only [deepCamelToSnake_obj]
      have hpt : ∀ e ∈ entries, (camelToSnake e.1, deepCamelToSnake e.2) = id e := by
        intro e he
        obtain ⟨hk, hv⟩ := h e he
        have h1 : camelToSnake e.1 = e.1 := camelToSnake_fixed_of_noAsciiUpper e.1 hk
        have h2 : deepCamelToSnake e.2 = e.2 := (ih e he).2.1 hv (hrec e he)
        simp [h1, h2]
      rw [List.map_congr_left hpt, List.map_id]
      have hb : buildObj entries = entries := buildObj_of_plain entries hplain
      rw [hb]
    · simp only [deepSnakeToCamel_obj]
      have hfix : ∀ q ∈ buildObj (entries.map
            (fun e => (snakeToCamel e.1, deepSnakeToCamel e.2))),
          (snakeToCamel q.1, deepSnakeToCamel q.2) = id q := by
        intro q hq
        obtain ⟨e, he, hEq⟩ := List.mem_map.1 (mem_buildObj _ q hq)
        subst hEq
        simp [snakeToCamel_idem e.1, (ih e he).2.2]
      rw [List.map_congr_left hfix, List.map_id,
        buildObj_of_plain _ (plainKeyList_buildObj _)]

/-! ## The axios response interceptor (services/api.ts)

The inbound stage acts on a settled transport outcome: on fulfillment it
transcodes a truthy response body wire→local (`if (response.data) { response.data
= deepSnakeToCamel(response.data) }`); on rejection it logs the error (a console
side effect outside this embedding) and re-rejects with the original error
object (`return Promise.reject(error)`). -/

/-- JavaScript truthiness of the modelled values (`if (response.data)`). -/
def truthy : JVal → Bool
  | .null => false
  | .undef => false
  | .bool b => b
  | .num n => n != 0
  | .str s => s != ""
  | .arr _ => true
  | .obj _ => true
  | .date _ => true

structure AxiosResponse where
  data : JVal
  status : Nat

def responseInterceptor {ε : Type} :
    Except ε AxiosResponse → Except ε AxiosResponse
  | .ok r => .ok (if truthy r.data then { r with data := deepSnakeToCamel r.data } else r)
  | .error e => .error e

/-- C9: the inbound stage's failure path re-rejects with the original error
object unmodified, whatever it is — the error is never swallowed, replaced, or
run through the success-path body transcoding. (The accompanying
`console.error` log is a diagnostic side effect outside the embedding.) -/
theorem responseInterceptor_rejects_unmodified {ε : Type} (e : ε) :
    responseInterceptor (Except.error e : Except ε AxiosResponse) =
      Except.error e := rfl

/-! ## The resource stores

`useYTChannelStore` and `useYTVideoStore` are textually identical up to the
resource name: the endpoint path and the per-action fallback error messages.
Each action below is therefore modelled once, parameterized by the action's
fallback message; the channel/video instantiations follow. An action is a pure
state transformer from the store's reactive state and the settled transport
outcome to the new state and the returned envelope. -/

/-- A resource item as the store logic sees it: a required unique `id` plus
opaque remaining fields (never inspected by the store). -/
structure Item where
  id : String
  payload : String
deriving DecidableEq

/-- A fulfilled axios response as the actions read it (`response.data`,
`response.status`). -/
structure TResponse (α : Type) where
  data : α
  status : Nat
deriving DecidableEq

/-- The `err.response` object of a failed request, if one reached the server. -/
structure ErrResponse where
  status : Nat
deriving DecidableEq

/-- A transport rejection as the catch blocks read it: `err.message` (absent
modelled as `none`) and `err.response` (absent when no response reached the
server). -/
structure ApiError where
  message : Option String
  response : Option ErrResponse
deriving DecidableEq

/-- `err.message || fallback`: the only falsy string is `""`. -/
def jsOrString (m : Option String) (fallback : String) : String :=
  match m with
  | some s => if s = "" then fallback else s
  | none => fallback

/-- `err.response?.status ?? null`. -/
def errStatus (e : ApiError) : Option Nat := e.response.map (fun r => r.status)

/-- The store's reactive state: `channels`/`videos` (here `items`), `loading`,
`error`. -/
structure StoreState where
  items : List Item
  loading : Bool
  error : Option String
deriving DecidableEq

/-- The `ApiResponse<T>` result envelope `{ data: T | null, status: number | null }`. -/
structure ApiResponse (α : Type) where
  data : Option α
  status : Option Nat
deriving DecidableEq

/-- `getAll`: sets `loading`, clears `error`, then on success replaces `items`
wholesale and returns the data with the response status; on failure records
the message and returns `{ data: [], status: err.response?.status ?? null }`.
The `finally` clears `loading` on both paths. -/
def getAll (fallback : String) (s : StoreState)
    (outcome : Except ApiError (TResponse (List Item))) :
    StoreState × ApiResponse (List Item) :=
  let s0 : StoreState := { s with loading := true, error := none }
  match outcome with
  | .ok r =>
    ({ s0 with items := r.data, loading := false },
     { data := some r.data, status := some r.status })
  | .error e =>
    ({ s0 with error := some (jsOrString e.message fallback), loading := false },
     { data := some [], status := errStatus e })

/-- `getById`: no state change on success; on failure records the message. -/
def getById (fallback : String) (s : StoreState)
    (outcome : Except ApiError (TResponse Item)) :
    StoreState × ApiResponse Item :=
  match outcome with
  | .ok r => (s, { data := some r.data, status := some r.status })
  | .error e =>
    ({ s with error := some (jsOrString e.message fallback) },
     { data := none, status := errStatus e })

/-- `create`: on success pushes the returned item onto `items`. -/
def create (fallback : String) (s : StoreState)
    (outcome : Except ApiError (TResponse Item)) :
    StoreState × ApiResponse Item :=
  match outcome with
  | .ok r =>
    ({ s with items := s.items ++ [r.data] },
     { data := some r.data, status := some r.status })
  | .error e =>
    ({ s with error := some (jsOrString e.message fallback) },
     { data := none, status := errStatus e })

/-- `update`: on success, `findIndex` by `id` (`none` models `-1`) and replace
in place when found; the envelope always carries the server's object. -/
def update (fallback : String) (s : StoreState) (id : String)
    (outcome : Except ApiError (TResponse Item)) :
    StoreState × ApiResponse Item :=
  match outcome with
  | .ok r =>
    ({ s with items :=
        match s.items.findIdx? (fun c => c.id == id) with
        | some i => s.items.set i r.data
        | none => s.items },
     { data := some r.data, status := some r.status })
  | .error e =>
    ({ s with error := some (jsOrString e.message fallback) },
     { data := none, status := errStatus e })

/-- `remove`: on success filters out every item with the given `id`; the
envelope's data is `null` on both paths. -/
def remove (fallback : String) (s : StoreState) (id : String)
    (outcome : Except ApiError (TResponse Unit)) :
    StoreState × ApiResponse Unit :=
  match outcome with
  | .ok r =>
    ({ s with items := s.items.filter (fun c => c.id != id) },
     { data := none, status := some r.status })
  | .error e =>
    ({ s with error := some (jsOrString e.message fallback) },
     { data := none, status := errStatus e })

/-! The two concrete stores differ only in these fallback strings. -/

def channelGetAll : StoreState → Except ApiError (TResponse (List Item)) →
    StoreState × ApiResponse (List Item) := getAll "Failed to fetch channels"

def channelGetById := getById "Failed to fetch channel"

def channelCreate := create "Failed to create channel"

def channelUpdate := update "Failed to update channel"

def channelRemove := remove "Failed to delete channel"

def videoGetAll : StoreState → Except ApiError (TResponse (List Item)) →
    StoreState × ApiResponse (List Item) := getAll "Failed to fetch videos"

def videoGetById := getById "Failed to fetch video"

def videoCreate := create "Failed to create video"

def videoUpdate := update "Failed to update video"

def videoRemove := remove "Failed to delete video"

/-! ### C4, C5, C6, C8, C10: store action semantics -/

/-- C4: on every failing `getAll`, the store's `error` becomes the error's
message (or the action fallback when absent/empty), `items` keeps its prior
value, and `loading` ends at `false`; the clearing of `loading` runs on the
success path as well. -/
theorem getAll_failure_semantics (fb : String) (s : StoreState) (e : ApiError) :
    (getAll fb s (.error e)).1.error = some (jsOrString e.message fb) ∧
    (∀ m, e.message = some m → m ≠ "" →
      (getAll fb s (.error e)).1.error = some m) ∧
    (e.message = none → (getAll fb s (.error e)).1.error = some fb) ∧
    (getAll fb s (.error e)).1.items = s.items ∧
    (getAll fb s (.error e)).1.loading = false ∧
    (∀ r, (getAll fb s (.ok r)).1.loading = false) := by
  refine ⟨rfl, ?_, ?_, rfl, rfl, fun _ => rfl⟩
  · intro m hm hne
    simp [getAll, jsOrString, hm, hne]
  · intro hm
    simp [getAll, jsOrString, hm]

/-- C5: every one of the five actions catches a transport rejection locally
and resolves with an envelope (the actions are total functions — nothing
rejects); the envelope's `status` is the failed response's status code when a
response exists and `null` otherwise, and the store's `error` is set to the
transport-provided message or the action's fallback. -/
theorem store_actions_normalize_failures (fb : String) (s : StoreState)
    (e : ApiError) (id : String) :
    ((getAll fb s (.error e)).2.status = errStatus e ∧
      (getAll fb s (.error e)).1.error = some (jsOrString e.message fb)) ∧
    ((getById fb s (.error e)).2.status = errStatus e ∧
      (getById fb s (.error e)).1.error = some (jsOrString e.message fb)) ∧
    ((create fb s (.error e)).2.status = errStatus e ∧
      (create fb s (.error e)).1.error = some (jsOrString e.message fb)) ∧
    ((update fb s id (.error e)).2.status = errStatus e ∧
      (update fb s id (.error e)).1.error = some (jsOrString e.message fb)) ∧
    ((remove fb s id (.error e)).2.status = errStatus e ∧
      (remove fb s id (.error e)).1.error = some (jsOrString e.message fb)) ∧
    (e.response = none → errStatus e = none) ∧
    (∀ rr, e.response = some rr → errStatus e = some rr.status) := by
  refine ⟨⟨rfl, rfl⟩, ⟨rfl, rfl⟩, ⟨rfl, rfl⟩, ⟨rfl, rfl⟩, ⟨rfl, rfl⟩, ?_, ?_⟩
  · intro h
    simp [errStatus, h]
  · intro rr h
    simp [errStatus, h]

/-- C6: a successful `update` whose `id` matches no element leaves `items`
unchanged while the envelope still carries the server's updated object and the
response's status; when an element matches at index `i`, it is replaced in
place — same length, every other position untouched. -/
theorem update_success_frame (fb : String) (s : StoreState) (id : String)
    (r : TResponse Item) :
    ((∀ c ∈ s.items, c.id ≠ id) →
      (update fb s id (.ok r)).1.items = s.items ∧
      (update fb s id (.ok r)).2.data = some r.data ∧
      (update fb s id (.ok r)).2.status = some r.status) ∧
    (∀ i, s.items.findIdx? (fun c => c.id == id) = some i →
      (update fb s id (.ok r)).1.items = s.items.set i r.data ∧
      (update fb s id (.ok r)).1.items.length = s.items.length ∧
      ∀ j, j ≠ i → (update fb s id (.ok r)).1.items[j]? = s.items[j]?) := by
  constructor
  · intro h
    have hnone : s.items.findIdx? (fun c => c.id == id) = none := by
      rw [List.findIdx?_eq_none_iff]
      intro x hx
      simp [h x hx]
    refine ⟨?_, rfl, rfl⟩
    simp [update, hnone]
  · intro i hi
    have hset : (update fb s id (.ok r)).1.items = s.items.set i r.data := by
      simp [update, hi]
    refine ⟨hset, ?_, ?_⟩
    · rw [hset, List.length_set]
    · intro j hj
      rw [hset, List.getElem?_set_ne (fun h => hj h.symm)]

/-- C6 witness: a successful update against a store holding one item with id
"a", for the unmatched id "b": items stay untouched and the envelope carries
the server's object and status. -/
theorem update_success_frame_witness :
    (update "Failed to update channel"
        { items := [{ id := "a", payload := "p" }], loading := false, error := none }
        "b" (.ok { data := { id := "b", payload := "q" }, status := 200 })).1.items =
      [{ id := "a", payload := "p" }] ∧
    (update "Failed to update channel"
        { items := [{ id := "a", payload := "p" }], loading := false, error := none }
        "b" (.ok { data := { id := "b", payload := "q" }, status := 200 })).2.data =
      some { id := "b", payload := "q" } :=
  ⟨((update_success_frame "Failed to update channel"
      { items := [{ id := "a", payload := "p" }], loading := false, error := none }
      "b" { data := { id := "b", payload := "q" }, status := 200 }).1
        (by decide)).1,
   ((update_success_frame "Failed to update channel"
      { items := [{ id := "a", payload := "p" }], loading := false, error := none }
      "b" { data := { id := "b", payload := "q" }, status := 200 }).1
        (by decide)).2.1⟩

/-- C8: `getById`, `create`, `update` and `remove` leave `loading` at its
prior value on success and on failure; only `getAll` drives the
idle→fetching→idle transition. -/
theorem loading_untouched_outside_list (fb : String) (s : StoreState)
    (id : String) (o : Except ApiError (TResponse Item))
    (oD : Except ApiError (TResponse Unit)) :
    (getById fb s o).1.loading = s.loading ∧
    (create fb s o).1.loading = s.loading ∧
    (update fb s id o).1.loading = s.loading ∧
    (remove fb s id oD).1.loading = s.loading := by
  refine ⟨?_, ?_, ?_, ?_⟩
  · cases o <;> rfl
  · cases o <;> rfl
  · cases o <;> rfl
  · cases oD <;> rfl

/-- C10: a failing `getAll` returns `data: []` (the empty sequence, not
`null`), unlike the other four actions, whose failure envelopes carry
`data: null`. -/
theorem getAll_failure_data_empty_not_null (fb : String) (s : StoreState)
    (e : ApiError) (id : String) :
    (getAll fb s (.error e)).2.data = some [] ∧
    (getAll fb s (.error e)).2.data ≠ none ∧
    (getById fb s (.error e)).2.data = none ∧
    (create fb s (.error e)).2.data = none ∧
    (update fb s id (.error e)).2.data = none ∧
    (remove fb s id (.error e)).2.data = none :=
  ⟨rfl, fun h => Option.noConfusion h, rfl, rfl, rfl, rfl⟩
